import Mathlib

/-!
Verification of the measurement core of `haimer_camera.py` (Haimer-Probe).

The per-frame pipeline's pure computations are shallowly embedded over `ℝ`:
`mean_angles`, `difference_of_angles`, `line_angle`, `filter_lines`,
`summarize_lines`, `calc_mm` and the measurement part of `get_measurement`
are translated directly from the source.  Python's `math.atan2` is modelled
by `Complex.arg`, which has the same principal range `(-π, π]` and the same
value `0` at the origin.  `find_skeleton` (a loop over binary rasters) is
embedded over finite pixel sets with a fuel parameter.  Floating-point
numbers are modelled as reals; the one place where float semantics is
essential (the 0/0 → NaN in `filter_lines`' point-to-line distance, whose
comparison with the cutoff is then false) is modelled by an `Option ℝ`
distance that is `none` exactly when the denominator vanishes.
-/

open Real

/-- Python `math.atan2 y x`: the angle of the point `(x, y)`, in `(-π, π]`,
with `atan2 0 0 = 0`.  `Complex.arg` has exactly this behaviour. -/
noncomputable def atan2 (y x : ℝ) : ℝ := Complex.arg (x + y * Complex.I)

/-- `np.mean` of a list of reals (claims only use it on non-empty lists). -/
noncomputable def listMean (l : List ℝ) : ℝ := l.sum / l.length

/-- `mean_angles` (haimer_camera.py lines 95-100): circular mean via the
two-argument arctangent of the mean sine and mean cosine. -/
noncomputable def mean_angles (lst : List ℝ) : ℝ :=
  atan2 (listMean (lst.map Real.sin)) (listMean (lst.map Real.cos))

/-- `difference_of_angles` (lines 103-105): signed circular difference. -/
noncomputable def difference_of_angles (theta1 theta2 : ℝ) : ℝ :=
  atan2 (Real.sin (theta1 - theta2)) (Real.cos (theta1 - theta2))

/-- `line_angle` (lines 108-111). -/
noncomputable def line_angle (pt1 pt2 : ℝ × ℝ) : ℝ :=
  atan2 (pt2.2 - pt1.2) (pt2.1 - pt1.1) + π / 2

/-- `c_haimer_ball_diam = 4.` (line 57). -/
def c_haimer_ball_diam : ℝ := 4

/-- `c_red_angle_start` (line 61). -/
def c_red_angle_start : ℝ := 1.9170124625343092

/-- `c_red_angle_end` (line 62). -/
def c_red_angle_end : ℝ := c_red_angle_start + 2.5120631002707458

/-- The fractional part returned by Python's `math.modf` : it carries the
sign of its argument (`modf (-2.3) = -0.3`), unlike `Int.fract`. -/
noncomputable def modf_frac (x : ℝ) : ℝ :=
  if x < 0 then -(Int.fract (-x)) else Int.fract x

/-- The angle normalization at `calc_mm` lines 362-369: add `2π` to a
negative angle, then clamp into `[0, 2π]`. -/
noncomputable def norm_angle (theta : ℝ) : ℝ :=
  max 0 (min (π * 2) (if theta < 0 then theta + π * 2 else theta))

/-- Modelled from the spec: `common.append_v` (file `common.py` is not in
the repository snapshot; only its callers are).  Spec §3/"AngleHistory" and
§4.5: a bounded FIFO of capacity `maxlen`; a sample is pushed only when one
was produced (a `None` sample is not pushed); on overflow the oldest entry
is dropped first. -/
def append_v {α : Type} (lst : List α) (v : Option α) (maxlen : Nat) : List α :=
  match v with
  | none => lst
  | some x => if maxlen ≤ lst.length then lst.tail ++ [x] else lst ++ [x]

/-- The static variables of `calc_mm` (line 353): `tare_on`, `tare_lst`. -/
structure TareState where
  tare_on : Bool
  tare_lst : List (ℝ × ℝ)

/-- The arithmetic of `calc_mm` after the normalization step
(lines 371-397), translated clause by clause from the source. -/
noncomputable def calc_mm_linear (theta_b theta_r : ℝ) : ℝ × ℝ × ℝ :=
  let mm_b := theta_b / (π * 2) * 1
  let mm_r := (theta_r - c_red_angle_start) / (c_red_angle_end - c_red_angle_start) * c_haimer_ball_diam
  let mm_r_d := modf_frac mm_r
  let theta_d := difference_of_angles theta_b (mm_r_d * π * 2)
  let mm_offset := theta_d / (2 * π)
  let mm_blended := mm_r + mm_offset
  let mm_final := mm_blended - c_haimer_ball_diam / 2
  (mm_final, mm_b, mm_r)

/-- `calc_mm` (lines 353-397), with the function-attribute tare state made
explicit.  While tare is on, the incoming pair is appended to the bounded
tare accumulator (line 359); the returned triple is
`(mm_final, mm_b, mm_r)` computed from the normalized angles. -/
noncomputable def calc_mm (st : TareState) (theta_b theta_r : ℝ) :
    (ℝ × ℝ × ℝ) × TareState :=
  let st' := if st.tare_on then
      { st with tare_lst := append_v st.tare_lst (some (theta_b, theta_r)) 200 }
    else st
  (calc_mm_linear (norm_angle theta_b) (norm_angle theta_r), st')

/-- The Calibrator algorithm exactly as worded in spec §4.6, for already
normalized inputs: `mm_black = θb/(2π)`;
`mm_red = (θr − start)/(end − start) × ball_diameter`;
`mm_red_fraction = fractional_part(mm_red)` (read with the mathematical
fractional part `Int.fract`);
`angular_offset = circular_difference(θb, mm_red_fraction × 2π)/(2π)`;
`mm_blended = mm_red + angular_offset`;
`mm_final = mm_blended − ball_diameter/2`. -/
noncomputable def calibrator_spec (theta_b theta_r : ℝ) : ℝ × ℝ × ℝ :=
  let mm_black := theta_b / (2 * π)
  let mm_red := (theta_r - c_red_angle_start) / (c_red_angle_end - c_red_angle_start) * c_haimer_ball_diam
  let mm_red_fraction := Int.fract mm_red
  let angular_offset := difference_of_angles theta_b (mm_red_fraction * (2 * π)) / (2 * π)
  let mm_blended := mm_red + angular_offset
  (mm_blended - c_haimer_ball_diam / 2, mm_black, mm_red)

/-- `math.modf`'s fractional part differs from `Int.fract` by `0` or `-1`. -/
theorem modf_frac_eq_fract_or (x : ℝ) :
    modf_frac x = Int.fract x ∨ modf_frac x = Int.fract x - 1 := by
  unfold modf_frac
  by_cases hx : x < 0
  · rw [if_pos hx]
    by_cases hf : Int.fract x = 0
    · left
      rw [Int.fract_neg_eq_zero.mpr hf, hf, neg_zero]
    · right
      rw [Int.fract_neg hf]
      ring
  · left; rw [if_neg hx]

/-- The circular difference only depends on the second argument modulo one
turn, so the `math.modf` fraction and `Int.fract` give the same offset. -/
theorem difference_of_angles_modf_fract (t x : ℝ) :
    difference_of_angles t (modf_frac x * π * 2)
      = difference_of_angles t (Int.fract x * (2 * π)) := by
  rcases modf_frac_eq_fract_or x with h | h
  · rw [h]
    have : t - Int.fract x * π * 2 = t - Int.fract x * (2 * π) := by ring
    unfold difference_of_angles
    rw [this]
  · rw [h]
    have harg : t - (Int.fract x - 1) * π * 2
        = t - Int.fract x * (2 * π) + 2 * π := by ring
    unfold difference_of_angles
    rw [harg, Real.sin_add_two_pi, Real.cos_add_two_pi]

/-- The normalization at lines 362-369 sends `[-π, π]` (the range of
`mean_angles`, the only producer of `calc_mm`'s inputs) into `[0, 2π)`. -/
theorem norm_angle_mem_Ico {theta : ℝ} (h : theta ∈ Set.Icc (-π) π) :
    norm_angle theta ∈ Set.Ico 0 (2 * π) := by
  obtain ⟨h1, h2⟩ := h
  have hπ := Real.pi_pos
  unfold norm_angle
  by_cases hneg : theta < 0
  · rw [if_pos hneg, min_eq_right (by linarith), max_eq_right (by linarith)]
    constructor <;> linarith
  · rw [if_neg hneg, min_eq_right (by linarith), max_eq_right (by linarith)]
    constructor <;> linarith

/-- `atan2 (sin t) (cos t) = t` on the principal range `(-π, π]`. -/
theorem atan2_sin_cos {t : ℝ} (ht : t ∈ Set.Ioc (-π) π) :
    atan2 (Real.sin t) (Real.cos t) = t := by
  unfold atan2
  rw [Complex.ofReal_cos, Complex.ofReal_sin]
  exact Complex.arg_cos_add_sin_mul_I ht

/-- The circular mean of a one-element list, in closed form: it reproduces
the angle itself on `[0, π]` and the angle minus one full turn on
`(π, 2π)`. -/
theorem mean_angles_singleton (theta : ℝ) (h0 : 0 ≤ theta) (h2 : theta < 2 * π) :
    mean_angles [theta] = if theta ≤ π then theta else theta - 2 * π := by
  have hs : mean_angles [theta] = atan2 (Real.sin theta) (Real.cos theta) := by
    unfold mean_angles listMean
    simp
  rw [hs]
  by_cases hle : theta ≤ π
  · rw [if_pos hle]
    exact atan2_sin_cos ⟨by linarith [Real.pi_pos], hle⟩
  · rw [if_neg hle]
    push_neg at hle
    rw [← Real.cos_sub_two_pi theta, ← Real.sin_sub_two_pi theta]
    exact atan2_sin_cos ⟨by linarith, by linarith [Real.pi_pos]⟩

/-- C1: for every pair of smoothed angles, after normalization into
`[0, 2π)`, `calc_mm` returns exactly the triple of the spec's Calibrator
algorithm: `mm_black = θb/(2π)`,
`mm_red = (θr − start)/(end − start) × ball_diameter`, an angular offset
equal to the signed circular difference between `θb` and the coarse
reading's fractional part times `2π`, divided by `2π`,
`mm_blended = mm_red + offset`, and
`mm_final = mm_blended − ball_diameter/2` — for every tare state. -/
theorem c1_calc_mm_matches_calibrator_spec (st : TareState) (theta_b theta_r : ℝ) :
    (calc_mm st theta_b theta_r).1
      = calibrator_spec (norm_angle theta_b) (norm_angle theta_r) := by
  show calc_mm_linear (norm_angle theta_b) (norm_angle theta_r)
      = calibrator_spec (norm_angle theta_b) (norm_angle theta_r)
  generalize norm_angle theta_b = tb
  generalize norm_angle theta_r = tr
  simp only [calc_mm_linear, calibrator_spec, Prod.mk.injEq]
  refine ⟨?_, ?_, trivial⟩
  · rw [difference_of_angles_modf_fract]
  · ring

/-- C4 counterexample: the claim says the circular mean of `[θ]` equals `θ`
for every `θ ∈ [0, 2π)`; at `θ = 3π/2` the mean is `-π/2 ≠ 3π/2`. -/
theorem c4_counterexample :
    0 ≤ 3 * π / 2 ∧ 3 * π / 2 < 2 * π ∧ mean_angles [3 * π / 2] ≠ 3 * π / 2 := by
  have hπ := Real.pi_pos
  refine ⟨by linarith, by linarith, ?_⟩
  have h := mean_angles_singleton (3 * π / 2) (by linarith) (by linarith)
  rw [if_neg (by linarith)] at h
  rw [h]
  intro hc
  linarith

/-- C4 (amended): the circular mean of the single-element list `[θ]` equals
`θ` for `θ ∈ [0, π]`, and equals `θ − 2π` (the same direction modulo one
turn, expressed in the arctangent's principal range) for `θ ∈ (π, 2π)`. -/
theorem c4_mean_angles_singleton (theta : ℝ) (h0 : 0 ≤ theta) (h2 : theta < 2 * π) :
    mean_angles [theta] = if theta ≤ π then theta else theta - 2 * π :=
  mean_angles_singleton theta h0 h2

/-- C4 witness: at `θ = π` the amended statement evaluates to
`mean_angles [π] = π`. -/
theorem c4_witness : mean_angles [π] = π := by
  have h := c4_mean_angles_singleton π Real.pi_pos.le (by linarith [Real.pi_pos])
  rwa [if_pos le_rfl] at h

/-- C7: `calc_mm` feeds its linear-mapping formulas exactly the normalized
angles (negative inputs get `2π` added, then the result is clamped, before
any linear arithmetic), and on `[-π, π]` — the range of the smoothed angles
it is called with — the normalized value lies in `[0, 2π)`. -/
theorem c7_normalized_before_linear (theta_b theta_r : ℝ) (st : TareState) :
    (calc_mm st theta_b theta_r).1
        = calc_mm_linear (norm_angle theta_b) (norm_angle theta_r)
      ∧ (theta_b ∈ Set.Icc (-π) π → norm_angle theta_b ∈ Set.Ico 0 (2 * π))
      ∧ (theta_r ∈ Set.Icc (-π) π → norm_angle theta_r ∈ Set.Ico 0 (2 * π)) :=
  ⟨rfl, fun h => norm_angle_mem_Ico h, fun h => norm_angle_mem_Ico h⟩

/-- C7 witness: at the concrete inputs `θb = -π/2`, `θr = π/2` both
normalized angles land in `[0, 2π)`. -/
theorem c7_witness :
    norm_angle (-(π / 2)) ∈ Set.Ico 0 (2 * π)
      ∧ norm_angle (π / 2) ∈ Set.Ico 0 (2 * π) := by
  have hπ := Real.pi_pos
  exact ⟨(c7_normalized_before_linear (-(π / 2)) (π / 2) ⟨false, []⟩).2.1
      ⟨by linarith, by linarith⟩,
    (c7_normalized_before_linear (-(π / 2)) (π / 2) ⟨false, []⟩).2.2
      ⟨by linarith, by linarith⟩⟩

/-- C8: the measurement triple `(mm_final, mm_b, mm_r)` returned by
`calc_mm` is identical for every tare state — tare active or not, and for
every content of the tare accumulator. -/
theorem c8_tare_does_not_alter_measurement (st1 st2 : TareState)
    (theta_b theta_r : ℝ) :
    (calc_mm st1 theta_b theta_r).1 = (calc_mm st2 theta_b theta_r).1 := rfl

/-- C9: on every non-empty list of angles, `mean_angles` returns a value in
`[-π, π]`, the principal range of the two-argument arctangent. -/
theorem c9_mean_angles_range (lst : List ℝ) (_h : lst ≠ []) :
    mean_angles lst ∈ Set.Icc (-π) π :=
  ⟨(Complex.neg_pi_lt_arg _).le, Complex.arg_le_pi _⟩

/-- C9 witness: the singleton list `[0]` is non-empty and its circular mean
lies in `[-π, π]`. -/
theorem c9_witness : mean_angles [0] ∈ Set.Icc (-π) π :=
  c9_mean_angles_range [0] (by simp)

/-- A candidate line segment `x1, y1, x2, y2` as returned by
`cv2.HoughLinesP` (integer pixel coordinates in the source, embedded in
`ℝ`). -/
structure Seg where
  x1 : ℝ
  y1 : ℝ
  x2 : ℝ
  y2 : ℝ

open Classical in
/-- A strict float comparison `a < b`, as the Bool the source branches on. -/
noncomputable def rlt (a b : ℝ) : Bool := decide (a < b)

theorem rlt_true_iff {a b : ℝ} : rlt a b = true ↔ a < b := by simp [rlt]

theorem rlt_false_iff {a b : ℝ} : rlt a b = false ↔ ¬a < b := by simp [rlt]

/-- The divisor of the point-to-line distance at line 157:
`sqrt((y2-y1)^2 + (x2-x1)^2)`, the length of the segment's difference
vector. -/
noncomputable def seg_den (s : Seg) : ℝ :=
  Real.sqrt ((s.y2 - s.y1) ^ 2 + (s.x2 - s.x1) ^ 2)

/-- The (absolute-value) dividend of the distance at line 157. -/
noncomputable def seg_num (s : Seg) (c : ℝ × ℝ) : ℝ :=
  |(s.y2 - s.y1) * c.1 - (s.x2 - s.x1) * c.2 + s.x2 * s.y1 - s.y2 * s.x1|

/-- The distance `d` of line 157.  The source divides unconditionally; for
a zero-length segment the divisor is `0` (and the dividend is then also
`0`), so under the numpy float semantics of the source the division yields
NaN.  NaN is modelled as `none`, and every comparison against it is false,
matching `NaN < cutoff = False`. -/
noncomputable def line_dist (s : Seg) (c : ℝ × ℝ) : Option ℝ :=
  if seg_den s = 0 then none else some (seg_num s c / seg_den s)

/-- The near-pivot mark `d < cutoff` assigned at line 159. -/
noncomputable def near_flag (c : ℝ × ℝ) (cutoff : ℝ) (s : Seg) : Bool :=
  match line_dist s c with
  | none => false
  | some d => rlt d cutoff

/-- The segment length computed at lines 172-174. -/
noncomputable def seg_len (s : Seg) : ℝ :=
  Real.sqrt ((s.x1 - s.x2) ^ 2 + (s.y1 - s.y2) ^ 2)

/-- A segment's orientation angle via `line_angle` (lines 183 and 188). -/
noncomputable def seg_angle (s : Seg) : ℝ :=
  line_angle (s.x1, s.y1) (s.x2, s.y2)

/-- The scan for the longest included segment (lines 166-177): the first
maximum under the source's strict `md is None or md < d` update. -/
noncomputable def find_longest :
    List (Bool × Seg) → Option (ℝ × (Bool × Seg)) → Option (ℝ × (Bool × Seg))
  | [], acc => acc
  | p :: rest, acc =>
      if p.1 then
        let d := seg_len p.2
        match acc with
        | none => find_longest rest (some (d, p))
        | some (md, m) =>
            if rlt md d then find_longest rest (some (d, p))
            else find_longest rest (some (md, m))
      else find_longest rest acc

/-- `filter_lines` (lines 148-196): stage 1 pairs every segment with its
near-pivot flag; stage 2 scans for the longest near-pivot segment; stage 3
runs only when one exists and keeps exactly the near-pivot segments,
re-marking each with the `|angle difference| < π/8` test against the
longest segment's orientation (the `if inc` guard at line 187 drops the
non-near segments from the returned list). -/
noncomputable def filter_lines (lines : List Seg) (c : ℝ × ℝ) (cutoff : ℝ) :
    List (Bool × Seg) :=
  let lines2 := lines.map (fun s => (near_flag c cutoff s, s))
  match find_longest lines2 none with
  | none => lines2
  | some (_, m) =>
      let a0 := seg_angle m.2
      lines2.filterMap (fun p =>
        if p.1 then
          some (p.1 && rlt |difference_of_angles a0 (seg_angle p.2)| (π / 8), p.2)
        else none)

/-- `summarize_lines` (lines 222-239): pools the pivot-to-endpoint angles
of the included segments; `None` when no segment is included. -/
noncomputable def summarize_lines (lines : List (Bool × Seg)) (c : ℝ × ℝ) :
    Option ℝ :=
  let aa := lines.foldr (fun p acc =>
    if p.1 then line_angle c (p.2.x1, p.2.y1) :: line_angle c (p.2.x2, p.2.y2) :: acc
    else acc) []
  if aa = [] then none else some (mean_angles aa)

/-- A segment's near-pivot flag is set exactly when its distance was
computable (non-degenerate segment) and below the cutoff. -/
theorem near_flag_true_iff {c : ℝ × ℝ} {cutoff : ℝ} {s : Seg} :
    near_flag c cutoff s = true ↔ ∃ d, line_dist s c = some d ∧ d < cutoff := by
  cases h : line_dist s c with
  | none => simp [near_flag, h]
  | some d => simp [near_flag, h, rlt]

/-- Inversion principle for `filter_lines` membership: every returned entry
carries a segment of the input, and its flag is either the bare near-pivot
flag (no near-pivot segment existed) or, when a longest near-pivot segment
exists, the angular-deviation test against it — in which case the entry's
segment was near-pivot. -/
theorem mem_filter_lines_inv (lines : List Seg) (c : ℝ × ℝ) (cutoff : ℝ)
    (p : Bool × Seg) (hmem : p ∈ filter_lines lines c cutoff) :
    p.2 ∈ lines ∧
      ((find_longest (lines.map fun s => (near_flag c cutoff s, s)) none = none
          ∧ p.1 = near_flag c cutoff p.2) ∨
       (∃ md m,
          find_longest (lines.map fun s => (near_flag c cutoff s, s)) none = some (md, m)
            ∧ near_flag c cutoff p.2 = true
            ∧ p.1 = rlt |difference_of_angles (seg_angle m.2) (seg_angle p.2)| (π / 8))) := by
  simp only [filter_lines] at hmem
  rcases hfl : find_longest (lines.map fun s => (near_flag c cutoff s, s)) none with _ | ⟨md, m⟩
  · rw [hfl] at hmem
    have hmap : p ∈ lines.map fun s => (near_flag c cutoff s, s) := hmem
    obtain ⟨s, hs, hps⟩ := List.mem_map.mp hmap
    refine ⟨?_, Or.inl ⟨rfl, ?_⟩⟩
    · rw [← hps]; exact hs
    · rw [← hps]
  · rw [hfl] at hmem
    have hfm : p ∈ (lines.map fun s => (near_flag c cutoff s, s)).filterMap
        (fun q => if q.1 then
          some (q.1 && rlt |difference_of_angles (seg_angle m.2) (seg_angle q.2)| (π / 8), q.2)
        else none) := hmem
    obtain ⟨b, hb, hfb⟩ := List.mem_filterMap.mp hfm
    obtain ⟨s, hs, hbs⟩ := List.mem_map.mp hb
    cases hb1 : b.1 with
    | false => rw [hb1] at hfb; simp at hfb
    | true =>
        rw [hb1] at hfb
        simp only [if_true, Bool.true_and] at hfb
        have hp := (Option.some.inj hfb).symm
        refine ⟨?_, Or.inr ⟨md, m, rfl, ?_, ?_⟩⟩
        · rw [hp]
          show b.2 ∈ lines
          rw [← hbs]; exact hs
        · have h2 : p.2 = b.2 := by rw [hp]
          rw [h2, ← hbs]
          rw [← hbs] at hb1
          exact hb1
        · rw [hp]

/-- The circular difference of an angle with itself is `0`. -/
theorem difference_of_angles_self (t : ℝ) : difference_of_angles t t = 0 := by
  unfold difference_of_angles atan2
  rw [sub_self, Real.sin_zero, Real.cos_zero]
  simp [Complex.arg_one]

/-- C3: a segment marked included by `filter_lines` always has a computed
point-to-line distance from the pivot below the cutoff (so no segment
farther than the cutoff is ever included, regardless of its length), and,
when a longest near-pivot segment exists, its orientation angle moreover
differs from that segment's orientation by less than `π/8` in absolute
signed circular difference. -/
theorem c3_included_only_near_and_aligned
    (lines : List Seg) (c : ℝ × ℝ) (cutoff : ℝ) (p : Bool × Seg)
    (hmem : p ∈ filter_lines lines c cutoff) (hinc : p.1 = true) :
    (∃ d, line_dist p.2 c = some d ∧ d < cutoff) ∧
      (∀ md m,
        find_longest (lines.map fun s => (near_flag c cutoff s, s)) none = some (md, m) →
        |difference_of_angles (seg_angle m.2) (seg_angle p.2)| < π / 8) := by
  obtain ⟨-, h | h⟩ := mem_filter_lines_inv lines c cutoff p hmem
  · obtain ⟨hfl, hflag⟩ := h
    refine ⟨near_flag_true_iff.mp (by rw [← hflag]; exact hinc), ?_⟩
    intro md m hsome
    rw [hfl] at hsome
    exact absurd hsome (by simp)
  · obtain ⟨md0, m0, hfl, hnear, hflag⟩ := h
    refine ⟨near_flag_true_iff.mp hnear, ?_⟩
    intro md m hsome
    rw [hfl] at hsome
    have hm : m0 = m := congrArg Prod.snd (Option.some.inj hsome)
    rw [← hm]
    rw [hflag] at hinc
    exact rlt_true_iff.mp hinc

/-- C3 witness: the segment `(0,0)-(3,4)` passes through the pivot `(0,0)`,
so its computed distance is defined and below the cutoff `5`. -/
theorem c3_witness :
    ∃ d, line_dist (⟨0, 0, 3, 4⟩ : Seg) (0, 0) = some d ∧ d < 5 := by
  have hden : seg_den (⟨0, 0, 3, 4⟩ : Seg) = 5 := by
    show Real.sqrt (((4 : ℝ) - 0) ^ 2 + ((3 : ℝ) - 0) ^ 2) = 5
    rw [show ((4 : ℝ) - 0) ^ 2 + ((3 : ℝ) - 0) ^ 2 = 5 ^ 2 by norm_num]
    exact Real.sqrt_sq (by norm_num)
  have hne : seg_den (⟨0, 0, 3, 4⟩ : Seg) ≠ 0 := by rw [hden]; norm_num
  have hld : line_dist (⟨0, 0, 3, 4⟩ : Seg) (0, 0)
      = some (seg_num (⟨0, 0, 3, 4⟩ : Seg) (0, 0) / seg_den (⟨0, 0, 3, 4⟩ : Seg)) := by
    unfold line_dist
    rw [if_neg hne]
  have hnum : seg_num (⟨0, 0, 3, 4⟩ : Seg) (0, 0) = 0 := by
    show |((4 : ℝ) - 0) * 0 - ((3 : ℝ) - 0) * 0 + 3 * 0 - 4 * 0| = 0
    norm_num
  have hval : seg_num (⟨0, 0, 3, 4⟩ : Seg) (0, 0) / seg_den (⟨0, 0, 3, 4⟩ : Seg) = 0 := by
    rw [hnum, zero_div]
  have hnf : near_flag (0, 0) 5 (⟨0, 0, 3, 4⟩ : Seg) = true := by
    unfold near_flag
    rw [hld, hval]
    exact rlt_true_iff.mpr (by norm_num)
  have hmap : ([⟨0, 0, 3, 4⟩] : List Seg).map (fun s => (near_flag (0, 0) 5 s, s))
      = [(true, ⟨0, 0, 3, 4⟩)] := by
    simp only [List.map_cons, List.map_nil]
    rw [hnf]
  have hflg : find_longest [(true, (⟨0, 0, 3, 4⟩ : Seg))] none
      = some (seg_len ⟨0, 0, 3, 4⟩, (true, ⟨0, 0, 3, 4⟩)) := by
    simp [find_longest]
  have hang : rlt |difference_of_angles (seg_angle ⟨0, 0, 3, 4⟩)
      (seg_angle ⟨0, 0, 3, 4⟩)| (π / 8) = true := by
    rw [difference_of_angles_self, abs_zero]
    exact rlt_true_iff.mpr (by positivity)
  have hout : filter_lines [⟨0, 0, 3, 4⟩] (0, 0) 5 = [(true, ⟨0, 0, 3, 4⟩)] := by
    simp only [filter_lines]
    rw [hmap, hflg]
    simp [hang]
  have hmem : ((true, ⟨0, 0, 3, 4⟩) : Bool × Seg) ∈ filter_lines [⟨0, 0, 3, 4⟩] (0, 0) 5 := by
    rw [hout]
    exact List.mem_singleton.mpr rfl
  exact (c3_included_only_near_and_aligned [⟨0, 0, 3, 4⟩] (0, 0) 5
    (true, ⟨0, 0, 3, 4⟩) hmem rfl).1

/-- C5 counterexample: for the zero-length segment `(5,5)-(5,5)` the
distance computation of line 157 does reach its division with a zero
divisor — the length of the difference vector is `0` — contradicting the
claim that `filter_lines` never divides by a zero-length difference
vector (the source has no guard; numpy turns the 0/0 into NaN, modelled as
`none`). -/
theorem c5_counterexample :
    seg_den (⟨5, 5, 5, 5⟩ : Seg) = 0
      ∧ line_dist (⟨5, 5, 5, 5⟩ : Seg) (0, 0) = none := by
  have hden : seg_den (⟨5, 5, 5, 5⟩ : Seg) = 0 := by
    show Real.sqrt (((5 : ℝ) - 5) ^ 2 + ((5 : ℝ) - 5) ^ 2) = 0
    simp
  refine ⟨hden, ?_⟩
  unfold line_dist
  rw [if_pos hden]

/-- C5 (amended): `filter_lines` does perform the distance division for a
degenerate segment (divisor `0`, an invalid 0/0 under the source's float
semantics, modelled as `none`); since every comparison with that NaN value
is false, a degenerate segment is never marked near-pivot, hence is marked
not included (or dropped) rather than causing an error. -/
theorem c5_degenerate_never_included
    (lines : List Seg) (c : ℝ × ℝ) (cutoff : ℝ) (p : Bool × Seg)
    (hmem : p ∈ filter_lines lines c cutoff) (hdeg : seg_den p.2 = 0) :
    p.1 = false ∧ line_dist p.2 c = none := by
  have hld : line_dist p.2 c = none := by
    unfold line_dist
    rw [if_pos hdeg]
  have hnf : near_flag c cutoff p.2 = false := by
    unfold near_flag
    rw [hld]
  obtain ⟨-, h | h⟩ := mem_filter_lines_inv lines c cutoff p hmem
  · exact ⟨by rw [h.2, hnf], hld⟩
  · obtain ⟨_, _, _, hnear, _⟩ := h
    rw [hnf] at hnear
    exact absurd hnear (by simp)

/-- C5 witness: the degenerate segment `(5,5)-(5,5)` comes back from
`filter_lines` marked not included, with an undefined distance. -/
theorem c5_witness :
    ((false, (⟨5, 5, 5, 5⟩ : Seg)) : Bool × Seg).1 = false
      ∧ line_dist ((false, (⟨5, 5, 5, 5⟩ : Seg)) : Bool × Seg).2 (0, 0) = none := by
  have hdeg : seg_den ((false, (⟨5, 5, 5, 5⟩ : Seg)) : Bool × Seg).2 = 0 := by
    show Real.sqrt (((5 : ℝ) - 5) ^ 2 + ((5 : ℝ) - 5) ^ 2) = 0
    simp
  have hld : line_dist (⟨5, 5, 5, 5⟩ : Seg) (0, 0) = none := by
    unfold line_dist
    rw [if_pos hdeg]
  have hnf : near_flag (0, 0) 5 (⟨5, 5, 5, 5⟩ : Seg) = false := by
    unfold near_flag
    rw [hld]
  have hmap : ([⟨5, 5, 5, 5⟩] : List Seg).map (fun s => (near_flag (0, 0) 5 s, s))
      = [(false, ⟨5, 5, 5, 5⟩)] := by
    simp only [List.map_cons, List.map_nil]
    rw [hnf]
  have hflg : find_longest [(false, (⟨5, 5, 5, 5⟩ : Seg))] none = none := by
    simp [find_longest]
  have hout : filter_lines [⟨5, 5, 5, 5⟩] (0, 0) 5 = [(false, ⟨5, 5, 5, 5⟩)] := by
    simp only [filter_lines]
    rw [hmap, hflg]
  have hmem : ((false, ⟨5, 5, 5, 5⟩) : Bool × Seg) ∈ filter_lines [⟨5, 5, 5, 5⟩] (0, 0) 5 := by
    rw [hout]
    exact List.mem_singleton.mpr rfl
  exact c5_degenerate_never_included [⟨5, 5, 5, 5⟩] (0, 0) 5 (false, ⟨5, 5, 5, 5⟩) hmem hdeg

/-- The longest-segment scan returns its accumulator unchanged when no
entry is marked included. -/
theorem find_longest_all_false (l : List (Bool × Seg))
    (acc : Option (ℝ × (Bool × Seg))) (h : ∀ p ∈ l, p.1 = false) :
    find_longest l acc = acc := by
  induction l generalizing acc with
  | nil => rfl
  | cons p rest ih =>
      have hp : p.1 = false := h p (List.mem_cons_self p rest)
      have hstep : find_longest (p :: rest) acc = find_longest rest acc := by
        simp [find_longest, hp]
      rw [hstep]
      exact ih acc fun q hq => h q (List.mem_cons_of_mem p hq)

/-- The endpoint-angle pool of `summarize_lines` is empty when no entry is
marked included. -/
theorem summarize_pool_nil (l : List (Bool × Seg)) (c : ℝ × ℝ)
    (h : ∀ p ∈ l, p.1 = false) :
    l.foldr (fun p acc =>
      if p.1 then line_angle c (p.2.x1, p.2.y1) :: line_angle c (p.2.x2, p.2.y2) :: acc
      else acc) [] = ([] : List ℝ) := by
  induction l with
  | nil => rfl
  | cons p rest ih =>
      have hp : p.1 = false := h p (List.mem_cons_self p rest)
      rw [List.foldr_cons, ih fun q hq => h q (List.mem_cons_of_mem p hq)]
      simp [hp]

/-- C10: when no candidate segment is within the cutoff distance of the
pivot, `filter_lines` returns every candidate marked not included — the
angle-clustering stage is skipped entirely, without error — and
`summarize_lines` on that result yields no sample (`none`). -/
theorem c10_all_far_all_excluded (lines : List Seg) (c : ℝ × ℝ) (cutoff : ℝ)
    (h : ∀ s ∈ lines, near_flag c cutoff s = false) :
    filter_lines lines c cutoff = lines.map (fun s => (false, s))
      ∧ summarize_lines (filter_lines lines c cutoff) c = none := by
  have hmap : lines.map (fun s => (near_flag c cutoff s, s))
      = lines.map (fun s => (false, s)) :=
    List.map_congr_left fun s hs => by rw [h s hs]
  have hfl : find_longest (lines.map fun s => (near_flag c cutoff s, s)) none = none := by
    apply find_longest_all_false
    intro p hp
    obtain ⟨s, hs, hps⟩ := List.mem_map.mp hp
    rw [← hps]
    exact h s hs
  have h1 : filter_lines lines c cutoff = lines.map (fun s => (false, s)) := by
    simp only [filter_lines]
    rw [hfl, hmap]
  refine ⟨h1, ?_⟩
  have hall : ∀ p ∈ lines.map (fun s => ((false : Bool), s)), p.1 = false := by
    intro p hp
    obtain ⟨s, hs, hps⟩ := List.mem_map.mp hp
    rw [← hps]
  rw [h1]
  simp only [summarize_lines]
  rw [summarize_pool_nil (lines.map fun s => (false, s)) c hall, if_pos rfl]

/-- C10 witness: the horizontal segment `(0,10)-(10,10)` lies at distance
`10 > 5` from the pivot `(0,0)`, so the whole cycle yields no sample. -/
theorem c10_witness :
    summarize_lines (filter_lines [⟨0, 10, 10, 10⟩] (0, 0) 5) (0, 0) = none := by
  have hden : seg_den (⟨0, 10, 10, 10⟩ : Seg) = 10 := by
    show Real.sqrt (((10 : ℝ) - 10) ^ 2 + ((10 : ℝ) - 0) ^ 2) = 10
    rw [show ((10 : ℝ) - 10) ^ 2 + ((10 : ℝ) - 0) ^ 2 = 10 ^ 2 by norm_num]
    exact Real.sqrt_sq (by norm_num)
  have hne : seg_den (⟨0, 10, 10, 10⟩ : Seg) ≠ 0 := by rw [hden]; norm_num
  have hld : line_dist (⟨0, 10, 10, 10⟩ : Seg) (0, 0)
      = some (seg_num (⟨0, 10, 10, 10⟩ : Seg) (0, 0) / seg_den (⟨0, 10, 10, 10⟩ : Seg)) := by
    unfold line_dist
    rw [if_neg hne]
  have hnum : seg_num (⟨0, 10, 10, 10⟩ : Seg) (0, 0) = 100 := by
    show |((10 : ℝ) - 10) * 0 - ((10 : ℝ) - 0) * 0 + 10 * 10 - 10 * 0| = 100
    rw [show ((10 : ℝ) - 10) * 0 - ((10 : ℝ) - 0) * 0 + 10 * 10 - 10 * 0 = 100 by norm_num]
    exact abs_of_nonneg (by norm_num)
  have hval : seg_num (⟨0, 10, 10, 10⟩ : Seg) (0, 0) / seg_den (⟨0, 10, 10, 10⟩ : Seg) = 10 := by
    rw [hnum, hden]
    norm_num
  have hnf : near_flag (0, 0) 5 (⟨0, 10, 10, 10⟩ : Seg) = false := by
    unfold near_flag
    rw [hld, hval]
    exact rlt_false_iff.mpr (by norm_num)
  refine (c10_all_far_all_excluded [⟨0, 10, 10, 10⟩] (0, 0) 5 ?_).2
  intro s hs
  rw [List.mem_singleton] at hs
  rw [hs]
  exact hnf

/-- The measurement-relevant static variables of `get_measurement`
(line 420): the two bounded angle histories, plus the tare state that its
callee `calc_mm` owns. -/
structure MeasState where
  theta_b_l : List ℝ
  theta_r_l : List ℝ
  tare : TareState

open Classical in
/-- The measurement slice of `get_measurement` (lines 420-456 and 549):
the instantaneous pointer angles (possibly `None` when a pointer yielded
no sample this frame) are appended to the bounded histories (lines
449-450); when both histories are non-empty — Python's list truthiness at
line 452 — the smoothed angles are the circular means of the histories and
the millimeter value is computed by `calc_mm` (lines 453-456); otherwise
`mm_final` keeps the `None` sentinel of line 422 and is returned at line
549.  Image composition, display and recording are omitted as
display-only. -/
noncomputable def get_measurement (st : MeasState) (theta_b theta_r : Option ℝ) :
    Option ℝ × MeasState :=
  let theta_b_l := append_v st.theta_b_l theta_b 200
  let theta_r_l := append_v st.theta_r_l theta_r 200
  if theta_b_l ≠ [] ∧ theta_r_l ≠ [] then
    let r := calc_mm st.tare (mean_angles theta_b_l) (mean_angles theta_r_l)
    (some r.1.1, ⟨theta_b_l, theta_r_l, r.2⟩)
  else
    (none, ⟨theta_b_l, theta_r_l, st.tare⟩)

open Classical in
/-- C2: in every measurement cycle the final millimeter value is present
if and only if both updated pointer histories are non-empty, and when
present it is exactly the `mm_final` that `calc_mm` computes from the two
circular-mean smoothed angles; otherwise the `None` sentinel is returned
instead of an error. -/
theorem c2_measurement_iff_both_histories (st : MeasState) (theta_b theta_r : Option ℝ) :
    ((get_measurement st theta_b theta_r).1.isSome ↔
        (get_measurement st theta_b theta_r).2.theta_b_l ≠ []
          ∧ (get_measurement st theta_b theta_r).2.theta_r_l ≠ [])
      ∧ (get_measurement st theta_b theta_r).1
          = (if append_v st.theta_b_l theta_b 200 ≠ []
                ∧ append_v st.theta_r_l theta_r 200 ≠ []
             then some ((calc_mm st.tare
                 (mean_angles (append_v st.theta_b_l theta_b 200))
                 (mean_angles (append_v st.theta_r_l theta_r 200))).1.1)
             else none) := by
  by_cases hc : append_v st.theta_b_l theta_b 200 ≠ []
      ∧ append_v st.theta_r_l theta_r 200 ≠ []
  · constructor
    · simp only [get_measurement, if_pos hc]
      simpa using hc
    · simp only [get_measurement, if_pos hc]
  · constructor
    · simp only [get_measurement, if_neg hc]
      simpa using hc
    · simp only [get_measurement, if_neg hc]

/-- A binary raster, as its finite set of foreground pixels. -/
abbrev Img := Finset (ℤ × ℤ)

/-- The pixel grid of a `W × H` image. -/
def grid (W H : ℤ) : Img := Finset.Icc 0 (W - 1) ×ˢ Finset.Icc 0 (H - 1)

/-- The 3×3 cross structuring element of line 133 (`cv2.MORPH_CROSS`):
the center plus the four axis neighbours, as offsets. -/
def crossDirs : List (ℤ × ℤ) := [(0, 0), (1, 0), (-1, 0), (0, 1), (0, -1)]

/-- `cv2.erode` with the cross kernel and OpenCV's default constant border
(whose value for erosion is `+∞`, i.e. pixels outside the grid count as
foreground): a pixel survives iff it and all its in-grid cross neighbours
are foreground. -/
def erode (g X : Img) : Img :=
  X.filter fun p => ∀ d ∈ crossDirs, p + d ∈ g → p + d ∈ X

/-- `cv2.dilate` with the cross kernel and OpenCV's default border (value
`-∞` for dilation, i.e. outside counts as background): a grid pixel is set
iff one of its cross neighbours is set. -/
def dilate (g X : Img) : Img :=
  g.filter fun p => ∃ d ∈ crossDirs, p + d ∈ X

/-- The `while True` loop of `find_skeleton` (lines 136-145), one call per
iteration, with explicit fuel (`none` = still running after `fuel`
iterations; the Python loop is unbounded).  Each iteration erodes the
working image, dilates the eroded copy, subtracts that from the
pre-erosion image (`cv2.subtract`, saturating on 0/255 images = set
difference), ORs the result into the accumulating skeleton, continues
with the eroded image, and returns — final working image, skeleton,
iteration count — exactly when the working image has no foreground pixel
left (`cv2.countNonZero(thresh) == 0`). -/
def skelAux (g : Img) : ℕ → Img → Img → ℕ → Option (Img × Img × ℕ)
  | 0, _, _, _ => none
  | fuel + 1, thresh, skeleton, iters =>
      let eroded := erode g thresh
      let temp := dilate g eroded
      let temp2 := thresh \ temp
      let skeleton' := skeleton ∪ temp2
      if eroded = ∅ then some (eroded, skeleton', iters + 1)
      else skelAux g fuel eroded skeleton' (iters + 1)

/-- `find_skeleton` (lines 126-145) on a `W × H` binary image with
foreground `X` (the `cv2.threshold(img, 127, 255, 0)` of line 131 is the
identity on a binary image): the skeleton and the consumed iteration
count, when the loop stops within `fuel` iterations. -/
def find_skeleton (g X : Img) (fuel : ℕ) : Option (Img × ℕ) :=
  (skelAux g fuel (X ∩ g) ∅ 0).map fun r => (r.2.1, r.2.2)

/-- Termination of the source's unbounded loop: some fuel suffices. -/
def FindSkeletonTerminates (g X : Img) : Prop :=
  ∃ fuel r, skelAux g fuel (X ∩ g) ∅ 0 = some r

/-- The `L¹` pixel distance. -/
def dist1 (p q : ℤ × ℤ) : ℕ := (p.1 - q.1).natAbs + (p.2 - q.2).natAbs

theorem mem_grid_iff {W H : ℤ} {p : ℤ × ℤ} :
    p ∈ grid W H ↔ (0 ≤ p.1 ∧ p.1 ≤ W - 1) ∧ (0 ≤ p.2 ∧ p.2 ≤ H - 1) := by
  unfold grid
  rw [Finset.mem_product, Finset.mem_Icc, Finset.mem_Icc]

theorem erode_subset (g X : Img) : erode g X ⊆ X := Finset.filter_subset _ _

theorem erode_iter_subset (g : Img) (k : ℕ) (X : Img) : (erode g)^[k] X ⊆ X := by
  induction k with
  | zero => rw [Function.iterate_zero_apply]
  | succ k ih =>
      rw [Function.iterate_succ_apply']
      exact (erode_subset g _).trans ih

/-- If some in-grid cross neighbour of `p` is background, `p` is eroded. -/
theorem erode_step_out (g Y : Img) (p p' d : ℤ × ℤ)
    (hd : d ∈ crossDirs) (hpd : p + d = p') (hp'g : p' ∈ g) (hp' : p' ∉ Y) :
    p ∉ erode g Y := by
  intro hmem
  rw [erode, Finset.mem_filter] at hmem
  have h := hmem.2 d hd (by rw [hpd]; exact hp'g)
  rw [hpd] at h
  exact hp' h

/-- Background spreads under iterated erosion: a pixel within `L¹`
distance `k` of a background grid pixel is gone after `k` erosions. -/
theorem erode_iter_kill (W H : ℤ) (k : ℕ) :
    ∀ X : Img, X ⊆ grid W H → ∀ p ∈ grid W H, ∀ q ∈ grid W H, q ∉ X →
      dist1 p q ≤ k → p ∉ (erode (grid W H))^[k] X := by
  induction k with
  | zero =>
      intro X _ p _ q _ hqX hd
      have hpq : p = q := by
        unfold dist1 at hd
        have h1 : p.1 = q.1 := by omega
        have h2 : p.2 = q.2 := by omega
        exact Prod.ext h1 h2
      rw [Function.iterate_zero_apply, hpq]
      exact hqX
  | succ k ih =>
      intro X hX p hp q hq hqX hd
      by_cases hdk : dist1 p q ≤ k
      · have hsub : (erode (grid W H))^[k + 1] X ⊆ (erode (grid W H))^[k] X := by
          rw [Function.iterate_succ_apply']
          exact erode_subset _ _
        exact fun hmem => ih X hX p hp q hq hqX hdk (hsub hmem)
      · have hpg := mem_grid_iff.mp hp
        have hqg := mem_grid_iff.mp hq
        unfold dist1 at hd hdk
        rw [Function.iterate_succ_apply']
        by_cases hx1 : p.1 < q.1
        · refine erode_step_out _ _ p (p + ((1 : ℤ), (0 : ℤ))) _ (by decide) rfl ?_
            (ih X hX (p + ((1 : ℤ), (0 : ℤ))) ?_ q hq hqX ?_)
          · simp only [mem_grid_iff, Prod.fst_add, Prod.snd_add]
            omega
          · simp only [mem_grid_iff, Prod.fst_add, Prod.snd_add]
            omega
          · unfold dist1
            simp only [Prod.fst_add, Prod.snd_add]
            omega
        · by_cases hx2 : q.1 < p.1
          · refine erode_step_out _ _ p (p + ((-1 : ℤ), (0 : ℤ))) _ (by decide) rfl ?_
              (ih X hX (p + ((-1 : ℤ), (0 : ℤ))) ?_ q hq hqX ?_)
            · simp only [mem_grid_iff, Prod.fst_add, Prod.snd_add]
              omega
            · simp only [mem_grid_iff, Prod.fst_add, Prod.snd_add]
              omega
            · unfold dist1
              simp only [Prod.fst_add, Prod.snd_add]
              omega
          · by_cases hy1 : p.2 < q.2
            · refine erode_step_out _ _ p (p + ((0 : ℤ), (1 : ℤ))) _ (by decide) rfl ?_
                (ih X hX (p + ((0 : ℤ), (1 : ℤ))) ?_ q hq hqX ?_)
              · simp only [mem_grid_iff, Prod.fst_add, Prod.snd_add]
                omega
              · simp only [mem_grid_iff, Prod.fst_add, Prod.snd_add]
                omega
              · unfold dist1
                simp only [Prod.fst_add, Prod.snd_add]
                omega
            · refine erode_step_out _ _ p (p + ((0 : ℤ), (-1 : ℤ))) _ (by decide) rfl ?_
                (ih X hX (p + ((0 : ℤ), (-1 : ℤ))) ?_ q hq hqX ?_)
              · simp only [mem_grid_iff, Prod.fst_add, Prod.snd_add]
                omega
              · simp only [mem_grid_iff, Prod.fst_add, Prod.snd_add]
                omega
              · unfold dist1
                simp only [Prod.fst_add, Prod.snd_add]
                omega

/-- With at least one background pixel in the grid, `W + H` erosions empty
the whole image. -/
theorem erode_iter_empty (W H : ℤ) (X : Img) (hX : X ⊆ grid W H)
    (hbg : ∃ q ∈ grid W H, q ∉ X) :
    (erode (grid W H))^[(W + H).toNat] X = ∅ := by
  obtain ⟨q, hq, hqX⟩ := hbg
  rw [Finset.eq_empty_iff_forall_not_mem]
  intro p hp
  have hpg : p ∈ grid W H := hX (erode_iter_subset _ _ _ hp)
  have hd : dist1 p q ≤ (W + H).toNat := by
    have h1 := mem_grid_iff.mp hpg
    have h2 := mem_grid_iff.mp hq
    unfold dist1
    omega
  exact erode_iter_kill W H ((W + H).toNat) X hX p hpg q hq hqX hd hp

/-- Fuel bound: if `n` erosions empty the working image, the loop returns
within `n + 1` iterations, with an empty final working image. -/
theorem skelAux_total (g : Img) (n : ℕ) :
    ∀ (T s : Img) (i : ℕ), (erode g)^[n] T = ∅ →
      ∃ r, skelAux g (n + 1) T s i = some r ∧ r.1 = ∅ := by
  induction n with
  | zero =>
      intro T s i hT
      rw [Function.iterate_zero_apply] at hT
      subst hT
      have he : erode g (∅ : Img) = ∅ := by
        simp [erode]
      refine ⟨(∅, s ∪ ((∅ : Img) \ dilate g (∅ : Img)), i + 1), ?_, rfl⟩
      simp only [skelAux]
      rw [he, if_pos rfl]
  | succ n ih =>
      intro T s i hT
      by_cases he : erode g T = ∅
      · refine ⟨(erode g T, s ∪ (T \ dilate g (erode g T)), i + 1), ?_, he⟩
        simp only [skelAux]
        rw [if_pos he]
      · have hT' : (erode g)^[n] (erode g T) = ∅ := by
          rw [← Function.iterate_succ_apply]
          exact hT
        obtain ⟨r, hr, hr1⟩ := ih (erode g T) (s ∪ (T \ dilate g (erode g T))) (i + 1) hT'
        refine ⟨r, ?_, hr1⟩
        simp only [skelAux]
        rw [if_neg he]
        exact hr

/-- C6 counterexample: on the 1×1 all-foreground image the claim's
universally quantified termination fails — erosion under OpenCV's default
border (outside counts as foreground for `erode`) leaves the image
unchanged, so the working image never empties and the loop of lines
136-145 runs forever. -/
theorem c6_counterexample : ¬FindSkeletonTerminates (grid 1 1) (grid 1 1) := by
  have herode : erode (grid 1 1) (grid 1 1) = grid 1 1 := by decide
  have hne : (grid 1 1 : Img) ≠ ∅ := by decide
  have hall : ∀ (fuel : ℕ) (s : Img) (i : ℕ),
      skelAux (grid 1 1) fuel (grid 1 1) s i = none := by
    intro fuel
    induction fuel with
    | zero => intro s i; rfl
    | succ n ih =>
        intro s i
        simp only [skelAux]
        rw [herode, if_neg hne]
        exact ih _ _
  rintro ⟨fuel, r, hr⟩
  rw [Finset.inter_self, hall fuel ∅ 0] at hr
  exact Option.noConfusion hr

/-- C6 (amended): `find_skeleton` performs exactly the erode / dilate /
subtract / OR / continue-with-eroded iteration and stops exactly when the
working image has no foreground pixel left, returning the iteration
count; the loop terminates on every binary image that contains at least
one background pixel inside the grid (fuel `W + H + 1` suffices, because
background spreads one pixel per erosion) — but not, as the claim has it,
on every binary image: the foreground count is indeed non-increasing and
bounded, yet on an all-foreground image it is constant and never reaches
zero. -/
theorem c6_terminates_with_background (W H : ℤ) (X : Img)
    (hbg : ∃ q ∈ grid W H, q ∉ X) :
    ∃ r, skelAux (grid W H) ((W + H).toNat + 1) (X ∩ grid W H) ∅ 0 = some r
      ∧ r.1 = ∅ := by
  obtain ⟨q, hq, hqX⟩ := hbg
  have hsub : X ∩ grid W H ⊆ grid W H := Finset.inter_subset_right
  have hq' : q ∉ X ∩ grid W H := fun hm => hqX (Finset.mem_inter.mp hm).1
  exact skelAux_total (grid W H) ((W + H).toNat) (X ∩ grid W H) ∅ 0
    (erode_iter_empty W H (X ∩ grid W H) hsub ⟨q, hq, hq'⟩)

/-- C6 witness: on the 2×2 image whose only foreground pixel is `(0,0)`,
the pixel `(1,1)` is background, and the loop stops with an empty working
image within the stated fuel. -/
theorem c6_witness :
    ∃ r, skelAux (grid 2 2) (((2 : ℤ) + 2).toNat + 1)
        (({((0 : ℤ), (0 : ℤ))} : Img) ∩ grid 2 2) ∅ 0 = some r ∧ r.1 = ∅ :=
  c6_terminates_with_background 2 2 {((0 : ℤ), (0 : ℤ))}
    ⟨((1 : ℤ), (1 : ℤ)), by decide, by decide⟩
